import Mathlib

/-!
Shallow embedding of `backup.py` (facundobatista/backupacker) and proofs about it.

Strings are modelled as `List Char` (a Python `str` is a sequence of Unicode code
points).  Filesystem paths are modelled as lists of components (`List String`);
`pathlib.Path` objects, whose equality is component-wise, are modelled by the
structure `PyPath` carrying an absolute-or-relative flag.  Fallible code returns
`Option`/`Except`.
-/

namespace Backupacker

/-- The set `DROPBOX_FORBIDDEN` from backup.py. -/
def DROPBOX_FORBIDDEN : List Char := ['"', '*', '/', ':', '<', '>', '?', '\\', '|']

/-- Uppercase hexadecimal digit character for `d < 16`.  The Python code produces
`hex(n)[2:]` (lowercase) and later applies `.upper()`; the composite effect is
uppercase hex digits, modelled directly. -/
def hexDigitCharU (d : Nat) : Char :=
  if d < 10 then Char.ofNat (48 + d) else Char.ofNat (55 + d)

/-- Fuel-based helper for `natToHex`; the fuel only serves to make the recursion
structural (hence kernel-reducible), and is irrelevant as soon as it exceeds the
argument (`natToHexAux_congr`). -/
def natToHexAux : Nat → Nat → List Char
  | 0, _ => []
  | fuel + 1, n =>
    if n < 16 then [hexDigitCharU n]
    else natToHexAux fuel (n / 16) ++ [hexDigitCharU (n % 16)]

/-- Big-endian uppercase hexadecimal digits of `n`, no leading zeros (and `['0']`
for `0`), modelling `hex(n)[2:].upper()`. -/
def natToHex (n : Nat) : List Char := natToHexAux (n + 1) n

/-- `_encode(char)` from backup.py: with `in_hex = hex(ord(char))[2:]` and
`pq = len(in_hex) // 2`, the result is `pq` percent signs followed by the
uppercase hex digits. -/
def _encode (c : Char) : List Char :=
  List.replicate ((natToHex c.toNat).length / 2) '%' ++ natToHex c.toNat

/-- The escaping condition of the loop in `sanitize`:
`char in DROPBOX_FORBIDDEN or ord(char) > 65535`. -/
def badChar (c : Char) : Bool :=
  decide (c ∈ DROPBOX_FORBIDDEN) || decide (65535 < c.toNat)

/-- One element of the `final_chars` list built by `sanitize`'s loop: the escape
of a bad character, or the character itself. -/
def sanChunk (c : Char) : List Char :=
  if badChar c then _encode c else [c]

/-- `sanitize(name)` from backup.py.  The loop maps `sanChunk` over the input;
then `final_chars[-1] in '. '` checks whether the last element is the one-character
string `"."` or `" "` (escape elements have length at least 3, so the substring
test of Python's `in` amounts to equality with `"."` or `" "`), and if so that
element is replaced by its `_encode`.  On the empty string Python raises
`IndexError` at `final_chars[-1]`; this is modelled by returning `none`. -/
def sanitize (name : List Char) : Option (List Char) :=
  match (name.map sanChunk).getLast? with
  | none => none
  | some last =>
    if last = ['.'] then some (((name.map sanChunk).dropLast ++ [_encode '.']).flatten)
    else if last = [' '] then some (((name.map sanChunk).dropLast ++ [_encode ' ']).flatten)
    else some (name.map sanChunk).flatten

/-- The sixteen uppercase hexadecimal digit characters. -/
def hexChars : List Char := ['0', '1', '2', '3', '4', '5', '6', '7', '8', '9', 'A', 'B', 'C', 'D', 'E', 'F']

/-- The last element of the `final_chars` list of `sanitize`, after the trailing
dot/space fixup, as a function of the last input character. -/
def sanLast (c : Char) : List Char :=
  if badChar c then _encode c
  else if c = '.' ∨ c = ' ' then _encode c
  else [c]

/-- The transformation described by claim C5's words: every forbidden or
above-BMP character replaced by its percent escape, every other character left
unchanged, with no special treatment of the final character. -/
def sanitizeClaimC5 (name : List Char) : List Char :=
  (name.map (fun c =>
    if c ∈ DROPBOX_FORBIDDEN ∨ 65535 < c.toNat then _encode c else [c])).flatten

/-- The claim C5 treatment of the final character, amended with the
trailing-dot/space rule. -/
def sanLastSpec (lc : Char) : List Char :=
  if lc ∈ DROPBOX_FORBIDDEN ∨ 65535 < lc.toNat then _encode lc
  else if lc = '.' ∨ lc = ' ' then _encode lc
  else [lc]

/-- The transformation of claim C5 amended with the trailing-character rule: as
`sanitizeClaimC5`, except that a final character which is a (non-replaced) dot or
space is also replaced by its percent escape. -/
def sanitizeAmendedC5 (name : List Char) : List Char :=
  match name.getLast? with
  | none => []
  | some lc => sanitizeClaimC5 name.dropLast ++ sanLastSpec lc

/-- Numeric value of an uppercase hexadecimal digit character. -/
def hexCharVal (c : Char) : Nat :=
  if c.toNat ≤ 57 then c.toNat - 48 else c.toNat - 55

/-- Value of a big-endian string of uppercase hexadecimal digit characters. -/
def hexVal (l : List Char) : Nat :=
  l.foldl (fun a c => 16 * a + hexCharVal c) 0

/-- Decoder for the escape format that `sanitize` emits: a run of `k` percent
signs introduces an escape with `2`, `5` or `6` hex digits for `k = 1, 2, 3`
(the only run lengths `_encode` produces for characters that ever get escaped);
every other character stands for itself.  It is a left inverse of `sanitize` on
percent-free inputs. -/
def decode : List Char → List Char
  | [] => []
  | '%' :: '%' :: '%' :: s => Char.ofNat (hexVal (s.take 6)) :: decode (s.drop 6)
  | '%' :: '%' :: s => Char.ofNat (hexVal (s.take 5)) :: decode (s.drop 5)
  | '%' :: s => Char.ofNat (hexVal (s.take 2)) :: decode (s.drop 2)
  | c :: s => c :: decode s
  termination_by l => l.length
  decreasing_by all_goals (simp [List.length_drop]; try omega)

/-! ## Filesystem and path model

Absolute paths are modelled as their component lists (`List String`), the
filesystem root being `[]`.  A directory tree is an `Entry`; children are kept
in an `EntryList` (a mutual inductive rather than `List Entry`, so that all
recursions stay structural and kernel-reducible). -/

/-- `isUnder q p` holds when the path `p` equals `q` or lies below `q`, i.e.
`q` is a component-wise prefix of `p`.  For `pathlib` objects this is exactly
`q == p or q in p.parents`. -/
def isUnder : List String → List String → Bool
  | [], _ => true
  | _ :: _, [] => false
  | a :: as, b :: bs => a == b && isUnder as bs

mutual
inductive Entry where
  | file (name : String) (readable : Bool)
  | dir (name : String) (children : EntryList)
deriving DecidableEq
inductive EntryList where
  | nil
  | cons (e : Entry) (tail : EntryList)
deriving DecidableEq
end

def Entry.name : Entry → String
  | .file n _ => n
  | .dir n _ => n

/-- Build an `EntryList` from a `List Entry` (readability helper for concrete
trees). -/
def elist : List Entry → EntryList
  | [] => .nil
  | e :: t => .cons e (elist t)

def EntryList.toList : EntryList → List Entry
  | .nil => []
  | .cons e t => e :: t.toList

/-- List-style induction principle for `EntryList` (no hypothesis on the
entries themselves). -/
def entryListInduction {Q : EntryList → Prop} (hnil : Q .nil)
    (hcons : ∀ e t, Q t → Q (.cons e t)) : ∀ l, Q l :=
  @EntryList.rec (fun _ => True) Q (fun _ _ => trivial) (fun _ _ _ => trivial)
    hnil (fun e t _ ht => hcons e t ht)

mutual
def isFileAt : Entry → List String → Bool
  | .file _ _, [] => true
  | .file _ _, _ :: _ => false
  | .dir _ _, [] => false
  | .dir _ children, nm :: rest => isFileAtL children nm rest
def isFileAtL : EntryList → String → List String → Bool
  | .nil, _, _ => false
  | .cons c cs, nm, rest => (c.name == nm && isFileAt c rest) || isFileAtL cs nm rest
end

mutual
def existsAt : Entry → List String → Bool
  | _, [] => true
  | .file _ _, _ :: _ => false
  | .dir _ children, nm :: rest => existsAtL children nm rest
def existsAtL : EntryList → String → List String → Bool
  | .nil, _, _ => false
  | .cons c cs, nm, rest => (c.name == nm && existsAt c rest) || existsAtL cs nm rest
end

/-! ## Archive builder (`build_tree`, backup.py lines 69-92)

`build_tree(rootdir, builddir, node, to_ignore)` opens a tar and walks
`rootdir / node` with `os.walk`.  A directory whose path is in `to_ignore` is
pruned (`dirnames.clear()`), skipping its files and subtrees.  Each file is
skipped when its path is in `to_ignore` or it is unreadable, and is otherwise
added with `arcname = str(Path(fpath).relative_to(rootdir))`.  `walkTar` below
computes the resulting entry list; `ig` is the ignore set, `root` the `rootdir`
argument, `dp` the absolute path of the entry being walked. -/

def walkFilesHere (ig : List (List String)) (root dp : List String) : EntryList → List (List String)
  | .nil => []
  | .cons (.file n r) t =>
    if (dp ++ [n]) ∈ ig then walkFilesHere ig root dp t
    else if r then (dp ++ [n]).drop root.length :: walkFilesHere ig root dp t
    else walkFilesHere ig root dp t
  | .cons (.dir _ _) t => walkFilesHere ig root dp t

mutual
def walkTar (ig : List (List String)) (root : List String) (dp : List String) : Entry → List (List String)
  | .file _ _ => []
  | .dir _ cs =>
    if dp ∈ ig then []
    else walkFilesHere ig root dp cs ++ walkTarKids ig root dp cs
def walkTarKids (ig : List (List String)) (root : List String) (dp : List String) : EntryList → List (List String)
  | .nil => []
  | .cons c t => walkTar ig root (dp ++ [c.name]) c ++ walkTarKids ig root dp t
end

/-! ## Tree partitioner (`explore`, backup.py lines 111-143) -/

/-- `sanitize` lifted to `String`; directory and file names are non-empty, so
the `getD` default (covering Python's `IndexError` on an empty name) is never
taken in any reachable call. -/
def sanitizeName (s : String) : String :=
  String.mk ((sanitize s.data).getD s.data)

/-- `group_levels_sub = {k: v - 1 for k, v in group_levels.items() if v > 1}`. -/
def decLevels (gl : List (List String × Nat)) : List (List String × Nat) :=
  gl.filterMap (fun kv => if 1 < kv.2 then some (kv.1, kv.2 - 1) else none)

/-- `any(group == node or group in node.parents for group in group_levels)`. -/
def groupMatch (gl : List (List String × Nat)) (node : List String) : Bool :=
  gl.any (fun kv => isUnder kv.1 node)

/-- One produced archive blob.  `buildDir` is the directory it is written in,
relative to the top build directory; `srcRoot` is the `rootdir` argument of the
`explore`/`build_tree` call that wrote it (recorded so that theorems can speak
about which directory entry names are relative to); `base` the sanitized base
name; `entries` the tar entry names (as component lists). -/
structure Blob where
  buildDir : List String
  srcRoot : List String
  base : String
  entries : List (List String)
deriving DecidableEq

/-- Output of `explore`: the created build subdirectories (relative to the top
build directory) and the produced blobs. -/
structure BuildOut where
  dirs : List (List String)
  blobs : List Blob
deriving DecidableEq

/-- `pack_files(rootdir, builddir, all_files)` (backup.py lines 95-108): nothing
when `all_files` is empty, otherwise one `_packed_files` blob holding the
readable files, each under `arcname = str(fname)` (its name relative to
`rootdir`). -/
def packBlobs (R B : List String) (files : List (String × Bool)) : List Blob :=
  if files.isEmpty then []
  else [⟨B, R, "_packed_files", (files.filter (fun f => f.2)).map (fun f => [f.1])⟩]

/-- The plain files collected by `explore`'s loop at one level (skipping ignored
nodes), with their readability, in iteration order. -/
def looseFiles (ig : List (List String)) (R : List String) : EntryList → List (String × Bool)
  | .nil => []
  | .cons (.file n r) t =>
    if (R ++ [n]) ∈ ig then looseFiles ig R t else (n, r) :: looseFiles ig R t
  | .cons (.dir _ _) t => looseFiles ig R t

mutual
/-- `explore(rootdir, builddir, group_levels, to_ignore)`: `R` is the absolute
path of `rootdir`, `B` the path of `builddir` relative to the top build
directory, and the `Entry` the tree rooted at `R`.  Per child `node` of `R`
(the Python loop runs over `sorted(rootdir.iterdir())`; here the iteration
order is the child order of the tree, see `exploreTop` for the sorting):
skip it if ignored; collect it if a plain file; if a directory matching a
`group_levels` key (equal or below one), create build subdirectory
`sanitize(str(node_relative))` and recurse with the decremented levels;
otherwise `build_tree` it as one leaf blob.  Finally `pack_files` the collected
loose files. -/
def explore (ig : List (List String)) (gl : List (List String × Nat)) (R B : List String) : Entry → BuildOut
  | .file _ _ => ⟨[], []⟩
  | .dir _ cs =>
    ⟨(exploreKids ig gl R B cs).dirs,
     (exploreKids ig gl R B cs).blobs ++ packBlobs R B (looseFiles ig R cs)⟩
def exploreKids (ig : List (List String)) (gl : List (List String × Nat)) (R B : List String) : EntryList → BuildOut
  | .nil => ⟨[], []⟩
  | .cons (.file _ _) t => exploreKids ig gl R B t
  | .cons (.dir cname ccs) t =>
    if R ++ [cname] ∈ ig then exploreKids ig gl R B t
    else if groupMatch gl (R ++ [cname]) then
      ⟨(B ++ [sanitizeName cname])
          :: (explore ig (decLevels gl) (R ++ [cname]) (B ++ [sanitizeName cname]) (.dir cname ccs)).dirs
          ++ (exploreKids ig gl R B t).dirs,
       (explore ig (decLevels gl) (R ++ [cname]) (B ++ [sanitizeName cname]) (.dir cname ccs)).blobs
          ++ (exploreKids ig gl R B t).blobs⟩
    else
      ⟨(exploreKids ig gl R B t).dirs,
       ⟨B, R, sanitizeName cname, walkTar ig R (R ++ [cname]) (.dir cname ccs)⟩
          :: (exploreKids ig gl R B t).blobs⟩
end

/-- Code-point comparison of names, modelling Python's string ordering used by
`sorted(rootdir.iterdir())` for same-directory paths. -/
def charListLe : List Char → List Char → Bool
  | [], _ => true
  | _ :: _, [] => false
  | a :: as, b :: bs =>
    if a.toNat < b.toNat then true
    else if b.toNat < a.toNat then false
    else charListLe as bs

def nameLe (a b : String) : Bool := charListLe a.data b.data

def insertEntry (e : Entry) : EntryList → EntryList
  | .nil => .cons e .nil
  | .cons x xs => if nameLe e.name x.name then .cons e (.cons x xs) else .cons x (insertEntry e xs)

def sortEntries : EntryList → EntryList
  | .nil => .nil
  | .cons e t => insertEntry e (sortEntries t)

mutual
/-- Sort every directory's children by name, modelling the per-level
`sorted(rootdir.iterdir())` of `explore` as one upfront pass (the two are
equivalent: `explore` only ever iterates one level's children). -/
def sortAllE : Entry → Entry
  | .file n r => .file n r
  | .dir n cs => .dir n (sortEntries (sortAllL cs))
def sortAllL : EntryList → EntryList
  | .nil => .nil
  | .cons e t => .cons (sortAllE e) (sortAllL t)
end

/-- The whole partitioning run on a source tree: children sorted per level, then
`explore` from the source root with an empty relative build path. -/
def exploreTop (ig : List (List String)) (gl : List (List String × Nat))
    (R : List String) (t : Entry) : BuildOut :=
  explore ig gl R [] (sortAllE t)

/-- The testable scenario of spec §8: root `/data` containing
`projects/a/x.txt`, `projects/b/y.txt` and `other/z.txt`, with
`group_levels = {"projects": 1}`. -/
def scenarioProjKids : EntryList :=
  elist [.dir "a" (elist [.file "x.txt" true]), .dir "b" (elist [.file "y.txt" true])]

def scenarioKids : EntryList :=
  elist [.dir "other" (elist [.file "z.txt" true]), .dir "projects" scenarioProjKids]

def scenarioTree : Entry := .dir "data" scenarioKids

def scenarioGL : List (List String × Nat) := [(["data", "projects"], 1)]

def c3WitnessTree : Entry :=
  .dir "data" (elist [.dir "secrets" (elist [.file "s.txt" true]), .file "z.txt" true])

instance exceptDecEq {α β : Type} [DecidableEq α] [DecidableEq β] :
    DecidableEq (Except α β) := fun x y =>
  match x, y with
  | .error a, .error b =>
    if h : a = b then .isTrue (by subst h; rfl)
    else .isFalse (fun hh => h (Except.error.inj hh))
  | .error _, .ok _ => .isFalse (fun hh => Except.noConfusion hh)
  | .ok _, .error _ => .isFalse (fun hh => Except.noConfusion hh)
  | .ok a, .ok b =>
    if h : a = b then .isTrue (by subst h; rfl)
    else .isFalse (fun hh => h (Except.ok.inj hh))

/-! ## Blob naming (`_get_name`, backup.py lines 59-66) and exclusive creation -/

/-- A `pathlib.Path`: `root` is the truthiness of `.root` (absolute vs
relative), `parts` the components.  Equality is component-wise, as for
`pathlib` objects. -/
structure PyPath where
  root : Bool
  parts : List String
deriving DecidableEq

/-- `directory.iterdir()` for a directory whose entry names are `names`: each
yielded object is `directory / name` (a full path, not a bare name). -/
def PyPath.iterdirList (d : PyPath) (names : List String) : List PyPath :=
  names.map (fun nm => ⟨d.root, d.parts ++ [nm]⟩)

/-- `directory / rel` for a relative `rel` (the only way it is used here). -/
def PyPath.div (d : PyPath) (rel : PyPath) : PyPath :=
  ⟨d.root, d.parts ++ rel.parts⟩

/-- The `while fpath in directory.iterdir(): fpath = f"{basename}-{num}.tar.bz2"`
loop of `_get_name`.  The fuel only bounds the iteration count for Lean's sake:
the candidates are pairwise distinct strings, so at most `entries.length`
membership tests can succeed and fuel `entries.length + 1` is never exhausted. -/
def getNameLoop (basename : String) (entries : List PyPath) : Nat → Nat → PyPath → PyPath
  | 0, _, fpath => fpath
  | fuel + 1, num, fpath =>
    if fpath ∈ entries then
      getNameLoop basename entries fuel (num + 1)
        ⟨false, [basename ++ "-" ++ toString num ++ ".tar.bz2"]⟩
    else fpath

/-- `_get_name(basename, directory)` from backup.py, with the directory's entry
names supplied explicitly: starts from the *relative* path
`Path(f"{basename}.tar.bz2")`, retries with `-1`, `-2`, … suffixes while it is
`in directory.iterdir()`, and returns `directory / fpath`. -/
def _get_name (basename : String) (directory : PyPath) (names : List String) : PyPath :=
  directory.div (getNameLoop basename (directory.iterdirList names) (names.length + 1) 1
    ⟨false, [basename ++ ".tar.bz2"]⟩)

/-- The naming-and-creation step of `build_tree` (lines 71-73):
`sane_name = sanitize(str(node))`, `fname = _get_name(sane_name, builddir)`,
then `tarfile.open(str(fname), "x:bz2")` — mode `x` creates exclusively and
raises `FileExistsError` when the file already exists. -/
def build_tree_open (builddir : PyPath) (existing : List String) (node_rel : String) :
    Except String PyPath :=
  if _get_name (sanitizeName node_rel) builddir existing ∈ builddir.iterdirList existing
  then Except.error "FileExistsError"
  else Except.ok (_get_name (sanitizeName node_rel) builddir existing)

/-! ## Diff reporter (`compare_content`, backup.py lines 146-159, and the
classification in `main`, lines 245-255) -/

/-- `compare_content(fpath1, fpath2)`: read 65536-byte chunks from both files
and compare them; `False` at the first differing chunk, `True` at end of file.
Files are modelled as their byte contents. -/
def compare_content (f1 f2 : List Nat) : Bool :=
  if f1.take 65536 ≠ f2.take 65536 then false
  else if _h : f1.take 65536 = [] then true
  else compare_content (f1.drop 65536) (f2.drop 65536)
  termination_by f1.length
  decreasing_by
    simp only [List.take_eq_nil_iff] at _h
    push_neg at _h
    have h1 : f1 ≠ [] := _h.2
    have h2 : f1.length ≠ 0 := fun hz => h1 (List.length_eq_zero.1 hz)
    simp only [List.length_drop]
    omega

/-- The per-blob classification of `main`: `new` when no file exists at the
mirror path (modelled as `none`), else `equal`/`changed` by `compare_content`. -/
def classify (build : List Nat) (sync : Option (List Nat)) : String :=
  match sync with
  | none => "new"
  | some s => if compare_content build s then "equal" else "changed"

/-! ## Ignore-list loading (`main`, backup.py lines 181-191) -/

/-- The ignore-list validation loop of `main`: each configured entry is parsed
as a path, joined to `rootdir`; an entry with a root (an absolute path) is a
fatal `ValueError`, as is an entry that does not exist under the root
(existence checked against the source tree `t`); otherwise `rootdir / entry`
enters the ignore set. -/
def loadIgnore (rootParts : List String) (t : Entry) :
    List PyPath → Except String (List (List String))
  | [] => .ok []
  | e :: rest =>
    if e.root then .error "to-ignore nodes must be relative"
    else if existsAt t e.parts = false then .error "to-ignore node does not exist"
    else
      match loadIgnore rootParts t rest with
      | .error m => .error m
      | .ok l => .ok ((rootParts ++ e.parts) :: l)

/-- The build phase of `main`: the configuration (here its ignore list) is
validated first and any error aborts the run before `explore` — in the code,
even before the old build directory is removed. -/
def mainBuild (rootParts : List String) (t : Entry) (ignoreEntries : List PyPath)
    (gl : List (List String × Nat)) : Except String BuildOut :=
  match loadIgnore rootParts t ignoreEntries with
  | .error m => .error m
  | .ok ig => .ok (exploreTop ig gl rootParts t)

def c8Tree : Entry := .dir "data" (elist [.dir "sub" .nil])

/-! ## Proofs -/

theorem natToHexAux_congr : ∀ fuel fuel' n, n < fuel → n < fuel' →
    natToHexAux fuel n = natToHexAux fuel' n := by
  intro fuel
  induction fuel with
  | zero => intro _ _ h _; omega
  | succ f ih =>
    intro fuel' n hn hn'
    match fuel', hn' with
    | f' + 1, _ =>
      simp only [natToHexAux]
      by_cases h16 : n < 16
      · simp [h16]
      · have hdiv : n / 16 < n := Nat.div_lt_self (by omega) (by omega)
        simp only [h16, if_false]
        rw [ih f' (n / 16) (by omega) (by omega)]

/-- The natural unfolding equation of `natToHex`, hiding the fuel. -/
theorem natToHex_eq (n : Nat) :
    natToHex n = if n < 16 then [hexDigitCharU n]
      else natToHex (n / 16) ++ [hexDigitCharU (n % 16)] := by
  show natToHexAux (n + 1) n = _
  simp only [natToHexAux]
  by_cases h16 : n < 16
  · simp [h16]
  · have hdiv : n / 16 < n := Nat.div_lt_self (by omega) (by omega)
    simp only [h16, if_false]
    rw [natToHexAux_congr n (n / 16 + 1) (n / 16) (by omega) (by omega)]
    rfl

theorem hexDigitCharU_mem (d : Nat) (hd : d < 16) : hexDigitCharU d ∈ hexChars := by
  interval_cases d <;> decide

theorem natToHex_chars (n : Nat) : ∀ c ∈ natToHex n, c ∈ hexChars := by
  induction n using Nat.strong_induction_on with
  | _ n ih =>
    intro c hc
    rw [natToHex_eq] at hc
    by_cases h16 : n < 16
    · simp only [h16, if_true, List.mem_singleton] at hc
      exact hc ▸ hexDigitCharU_mem n h16
    · simp only [h16, if_false, List.mem_append, List.mem_singleton] at hc
      rcases hc with hc | hc
      · exact ih (n / 16) (Nat.div_lt_self (by omega) (by omega)) c hc
      · exact hc ▸ hexDigitCharU_mem (n % 16) (Nat.mod_lt n (by omega))

theorem natToHex_ne_nil (n : Nat) : natToHex n ≠ [] := by
  rw [natToHex_eq]
  by_cases h16 : n < 16 <;> simp [h16]

theorem natToHex_length (k : Nat) : ∀ n, 16 ^ k ≤ n → n < 16 ^ (k + 1) →
    (natToHex n).length = k + 1 := by
  induction k with
  | zero =>
    intro n _ hlt
    have hlt' : n < 16 := by simpa using hlt
    rw [natToHex_eq]
    simp [hlt']
  | succ k ih =>
    intro n hle hlt
    have h16 : ¬ n < 16 := by
      have : (16 : Nat) ≤ 16 ^ (k + 1) := Nat.le_self_pow (by omega) 16
      omega
    rw [natToHex_eq]
    simp only [h16, if_false, List.length_append, List.length_singleton]
    have hdle : 16 ^ k ≤ n / 16 := by
      rw [Nat.le_div_iff_mul_le (by omega)]
      calc 16 ^ k * 16 = 16 ^ (k + 1) := by ring
        _ ≤ n := hle
    have hdlt : n / 16 < 16 ^ (k + 1) := by
      rw [Nat.div_lt_iff_lt_mul (by omega)]
      calc n < 16 ^ (k + 2) := hlt
        _ = 16 ^ (k + 1) * 16 := by ring
    rw [ih (n / 16) hdle hdlt]

/-- Characters coming out of an `_encode` escape: a percent sign or an uppercase
hex digit. -/
theorem _encode_chars (c : Char) : ∀ x ∈ _encode c, x = '%' ∨ x ∈ hexChars := by
  intro x hx
  simp only [_encode, List.mem_append] at hx
  rcases hx with hx | hx
  · exact Or.inl (List.eq_of_mem_replicate hx)
  · exact Or.inr (natToHex_chars c.toNat x hx)

/-- An `_encode` escape is never the one-character string `"."` nor `" "`. -/
theorem _encode_ne_dot_space (c : Char) : _encode c ≠ ['.'] ∧ _encode c ≠ [' '] := by
  constructor <;> intro h
  · have : '.' ∈ _encode c := by rw [h]; exact List.mem_singleton_self _
    rcases _encode_chars c '.' this with h' | h' <;> simp_all [hexChars]
  · have : ' ' ∈ _encode c := by rw [h]; exact List.mem_singleton_self _
    rcases _encode_chars c ' ' this with h' | h' <;> simp_all [hexChars]

/-- Structural characterization of `sanitize` on a non-empty input, splitting off
the last character.  This is how the loop plus the `final_chars[-1]` fixup of the
Python code compose. -/
theorem sanitize_concat (l : List Char) (c : Char) :
    sanitize (l ++ [c]) = some ((l.map sanChunk).flatten ++ sanLast c) := by
  unfold sanitize
  simp only [List.map_append, List.map_cons, List.map_nil, List.getLast?_concat,
    List.dropLast_concat]
  by_cases hbad : badChar c
  · have hchunk : sanChunk c = _encode c := by simp [sanChunk, hbad]
    rw [hchunk, if_neg (_encode_ne_dot_space c).1, if_neg (_encode_ne_dot_space c).2]
    simp [sanLast, hbad, hchunk]
  · have hchunk : sanChunk c = [c] := by simp [sanChunk, hbad]
    rw [hchunk]
    by_cases hdot : c = '.'
    · subst hdot
      simp [sanLast, hbad]
    · by_cases hsp : c = ' '
      · subst hsp
        simp [sanLast, hbad]
      · rw [if_neg (by simp [hdot]), if_neg (by simp [hsp])]
        simp [sanLast, hbad, hdot, hsp, hchunk]

theorem sanLast_ne_nil (c : Char) : sanLast c ≠ [] := by
  unfold sanLast
  have h := natToHex_ne_nil c.toNat
  split
  · simp [_encode, h]
  · split <;> simp [_encode, h]

theorem flatten_map_singleton (l : List Char) : (l.map (fun c => [c])).flatten = l := by
  induction l with
  | nil => rfl
  | cons c l ih => simp [ih]

theorem sanitize_eq_none_iff (name : List Char) : sanitize name = none ↔ name = [] := by
  constructor
  · intro h
    by_contra hne
    have hgl : name.getLast? ≠ none := by
      simpa [List.getLast?_eq_none_iff] using hne
    obtain ⟨lc, hlc⟩ := Option.ne_none_iff_exists'.1 hgl
    have heq := sanitize_concat name.dropLast lc
    rw [List.dropLast_append_getLast? lc hlc] at heq
    rw [heq] at h
    exact Option.noConfusion h
  · rintro rfl; rfl

/-- A name all of whose characters are allowed and whose last character is neither
a dot nor a space passes through `sanitize` unchanged. -/
theorem sanitize_clean_id (name : List Char) (lc : Char)
    (hclean : ∀ c ∈ name, badChar c = false)
    (hl : name.getLast? = some lc) (hdot : lc ≠ '.') (hsp : lc ≠ ' ') :
    sanitize name = some name := by
  have hdecomp : name.dropLast ++ [lc] = name := List.dropLast_append_getLast? lc hl
  rw [← hdecomp, sanitize_concat]
  have hmap : name.dropLast.map sanChunk = name.dropLast.map (fun c => [c]) := by
    apply List.map_congr_left
    intro c hc
    have : c ∈ name := by rw [← hdecomp]; exact List.mem_append_left _ hc
    simp [sanChunk, hclean c this]
  have hlastc : sanLast lc = [lc] := by
    have : badChar lc = false := hclean lc (by rw [← hdecomp]; simp)
    simp [sanLast, this, hdot, hsp]
  rw [hmap, flatten_map_singleton, hlastc]

theorem badChar_false_iff (c : Char) :
    badChar c = false ↔ c ∉ DROPBOX_FORBIDDEN ∧ c.toNat ≤ 65535 := by
  simp only [badChar, Bool.or_eq_false_iff, decide_eq_false_iff_not, not_lt]

theorem hexChars_clean : ∀ c ∈ hexChars, badChar c = false := by decide

theorem pct_clean : badChar '%' = false := by decide

/-- Every character of a `sanitize` output is itself allowed (not forbidden and
within the basic multilingual plane). -/
theorem sanitize_chars (name out : List Char) (h : sanitize name = some out) :
    ∀ x ∈ out, badChar x = false := by
  rcases List.eq_nil_or_concat name with rfl | ⟨l, c, rfl⟩
  · simp [sanitize] at h
  · rw [List.concat_eq_append] at h
    rw [sanitize_concat] at h
    obtain rfl : (l.map sanChunk).flatten ++ sanLast c = out := by
      injection h
    intro x hx
    have hchunkx : ∀ d : Char, x ∈ sanChunk d → badChar x = false := by
      intro d hd
      by_cases hbad : badChar d
      · simp only [sanChunk, hbad, if_true] at hd
        rcases _encode_chars d x hd with rfl | hhex
        · exact pct_clean
        · exact hexChars_clean x hhex
      · unfold sanChunk at hd
        rw [if_neg hbad, List.mem_singleton] at hd
        subst hd
        simpa using hbad
    rcases List.mem_append.1 hx with hx | hx
    · obtain ⟨ch, hch, hmem⟩ := List.mem_flatten.1 hx
      obtain ⟨d, _, rfl⟩ := List.mem_map.1 hch
      exact hchunkx d hmem
    · unfold sanLast at hx
      split at hx
      · rcases _encode_chars c x hx with rfl | hhex
        · exact pct_clean
        · exact hexChars_clean x hhex
      · split at hx
        · rcases _encode_chars c x hx with rfl | hhex
          · exact pct_clean
          · exact hexChars_clean x hhex
        · rename_i hbad _
          simp only [List.mem_singleton] at hx
          subst hx
          simpa using hbad

theorem _encode_last (c : Char) (x : Char) (h : (_encode c).getLast? = some x) :
    x ∈ hexChars := by
  have hne := natToHex_ne_nil c.toNat
  unfold _encode at h
  rw [List.getLast?_append_of_ne_nil _ hne] at h
  have hx : x ∈ natToHex c.toNat := by
    obtain ⟨h', rfl⟩ := List.mem_getLast?_eq_getLast (by rw [h]; rfl)
    exact List.getLast_mem h'
  exact natToHex_chars c.toNat x hx

/-- The last character of a `sanitize` output is never a dot nor a space. -/
theorem sanitize_last (name out : List Char) (h : sanitize name = some out)
    (x : Char) (hx : out.getLast? = some x) : x ≠ '.' ∧ x ≠ ' ' := by
  rcases List.eq_nil_or_concat name with rfl | ⟨l, c, rfl⟩
  · simp [sanitize] at h
  · rw [List.concat_eq_append] at h
    rw [sanitize_concat] at h
    obtain rfl : (l.map sanChunk).flatten ++ sanLast c = out := by
      injection h
    rw [List.getLast?_append_of_ne_nil _ (sanLast_ne_nil c)] at hx
    unfold sanLast at hx
    split at hx
    · have := _encode_last c x hx
      constructor <;> rintro rfl <;> simp [hexChars] at this
    · split at hx
      · have := _encode_last c x hx
        constructor <;> rintro rfl <;> simp [hexChars] at this
      · rename_i hds
        simp only [List.getLast?_singleton, Option.some.injEq] at hx
        subst hx
        exact ⟨fun h' => hds (Or.inl h'), fun h' => hds (Or.inr h')⟩

theorem sanitize_ne_nil (name out : List Char) (h : sanitize name = some out) :
    out ≠ [] := by
  rcases List.eq_nil_or_concat name with rfl | ⟨l, c, rfl⟩
  · simp [sanitize] at h
  · rw [List.concat_eq_append] at h
    rw [sanitize_concat] at h
    obtain rfl : (l.map sanChunk).flatten ++ sanLast c = out := by
      injection h
    simp [sanLast_ne_nil c]

theorem sanChunk_eq_spec (c : Char) :
    sanChunk c = if c ∈ DROPBOX_FORBIDDEN ∨ 65535 < c.toNat then _encode c else [c] := by
  unfold sanChunk badChar
  by_cases h : c ∈ DROPBOX_FORBIDDEN ∨ 65535 < c.toNat
  · rcases h with h | h <;> simp [h]
  · push_neg at h
    simp [h.1, h.2, Nat.not_lt.2 h.2]

/-- Claim C5, counterexample: `sanitize` does not perform exactly the
per-character replacement the claim describes.  On input `"a."` the final dot is
neither forbidden nor above the BMP, yet it is not left unchanged: the code
produces `"a%2E"`. -/
theorem claim_C5_counterexample :
    sanitize ['a', '.'] ≠ some (sanitizeClaimC5 ['a', '.']) ∧
    sanitizeClaimC5 ['a', '.'] = ['a', '.'] ∧
    sanitize ['a', '.'] = some ['a', '%', '2', 'E'] := by decide

/-- Claim C5, amended: on every non-empty input, `sanitize` replaces exactly the
forbidden characters and the characters above the basic multilingual plane by
`h/2` percent signs followed by the uppercase hex digits (`h` the number of hex
digits), leaves all other characters unchanged except that a final dot or space
is additionally escaped the same way, and the output never contains a forbidden
character verbatim. -/
theorem claim_C5_amended (name : List Char) (lc : Char) (h : name.getLast? = some lc) :
    sanitize name = some (sanitizeAmendedC5 name) ∧
    ∀ x ∈ sanitizeAmendedC5 name, x ∉ DROPBOX_FORBIDDEN := by
  have hdecomp : name.dropLast ++ [lc] = name := List.dropLast_append_getLast? lc h
  have hmap : List.map sanChunk name.dropLast
      = List.map (fun c => if c ∈ DROPBOX_FORBIDDEN ∨ 65535 < c.toNat then _encode c
          else [c]) name.dropLast :=
    List.map_congr_left (fun c _ => sanChunk_eq_spec c)
  have hlastsp : sanLast lc = sanLastSpec lc := by
    unfold sanLast sanLastSpec badChar
    by_cases hb : lc ∈ DROPBOX_FORBIDDEN ∨ 65535 < lc.toNat
    · rcases hb with hb | hb <;> simp [hb]
    · push_neg at hb
      simp [hb.1, hb.2, Nat.not_lt.2 hb.2]
  have hsan : sanitize name = some (sanitizeAmendedC5 name) := by
    conv_lhs => rw [← hdecomp]
    rw [sanitize_concat]
    unfold sanitizeAmendedC5
    rw [h]
    show some ((name.dropLast.map sanChunk).flatten ++ sanLast lc)
      = some (sanitizeClaimC5 name.dropLast ++ sanLastSpec lc)
    unfold sanitizeClaimC5
    rw [hmap, hlastsp]
  refine ⟨hsan, fun x hx => ?_⟩
  have := sanitize_chars name _ hsan x hx
  exact ((badChar_false_iff x).1 this).1

theorem claim_C5_witness :
    sanitize ['*'] = some (sanitizeAmendedC5 ['*']) ∧
    ∀ x ∈ sanitizeAmendedC5 ['*'], x ∉ DROPBOX_FORBIDDEN :=
  claim_C5_amended ['*'] '*' rfl

/-- Claim C9: if the final character of the name is a (non-replaced) literal dot
or space — which is exactly when the last element of `final_chars` after the
escaping loop is the one-character string `"."` or `" "` — then `sanitize`
escapes that final character with `_encode` as well; consequently no sanitized
name ends in a dot or a space. -/
theorem claim_C9 (name : List Char) :
    (∀ lc, name.getLast? = some lc → lc = '.' ∨ lc = ' ' →
      sanitize name = some ((name.dropLast.map sanChunk).flatten ++ _encode lc)) ∧
    (∀ out x, sanitize name = some out → out.getLast? = some x → x ≠ '.' ∧ x ≠ ' ') := by
  constructor
  · intro lc hl hds
    have hdecomp : name.dropLast ++ [lc] = name := List.dropLast_append_getLast? lc hl
    conv_lhs => rw [← hdecomp]
    rw [sanitize_concat]
    have hlast : sanLast lc = _encode lc := by
      rcases hds with rfl | rfl <;> simp [sanLast, badChar, DROPBOX_FORBIDDEN]
    rw [hlast]
  · intro out x hout hx
    exact sanitize_last name out hout x hx

theorem claim_C9_witness :
    sanitize [' '] = some (([' '].dropLast.map sanChunk).flatten ++ _encode ' ') ∧
    ('0' ≠ '.' ∧ '0' ≠ ' ') :=
  ⟨(claim_C9 [' ']).1 ' ' rfl (Or.inr rfl),
   (claim_C9 [' ']).2 ['%', '2', '0'] '0' (by decide) rfl⟩

/-- Claim C10: `sanitize` is idempotent on non-empty inputs: whenever
`sanitize name` produces an output (exactly the non-empty inputs), sanitizing
that output returns it unchanged, because it contains no forbidden character, no
character above the basic multilingual plane, and never ends in a dot or space. -/
theorem claim_C10 (name out : List Char) (h : sanitize name = some out) :
    sanitize out = some out := by
  have hne : out ≠ [] := sanitize_ne_nil name out h
  have hlast : out.getLast? = some (out.getLast hne) :=
    List.getLast?_eq_getLast_of_ne_nil hne
  have hds := sanitize_last name out h _ hlast
  exact sanitize_clean_id out (out.getLast hne) (sanitize_chars name out h) hlast hds.1 hds.2

theorem claim_C10_witness : sanitize ['a', '%', '2', 'E'] = some ['a', '%', '2', 'E'] :=
  claim_C10 ['a', '.'] ['a', '%', '2', 'E'] (by decide)

theorem hexCharVal_hexDigitCharU (d : Nat) (hd : d < 16) :
    hexCharVal (hexDigitCharU d) = d := by
  interval_cases d <;> decide

theorem hexVal_concat (l : List Char) (c : Char) :
    hexVal (l ++ [c]) = 16 * hexVal l + hexCharVal c := by
  simp [hexVal, List.foldl_append]

theorem hexVal_natToHex (n : Nat) : hexVal (natToHex n) = n := by
  induction n using Nat.strong_induction_on with
  | _ n ih =>
    rw [natToHex_eq]
    by_cases h16 : n < 16
    · simp only [h16, if_true]
      show hexVal ([] ++ [hexDigitCharU n]) = n
      rw [hexVal_concat, hexCharVal_hexDigitCharU n h16]
      simp [hexVal]
    · simp only [h16, if_false]
      rw [hexVal_concat, ih (n / 16) (Nat.div_lt_self (by omega) (by omega)),
        hexCharVal_hexDigitCharU (n % 16) (Nat.mod_lt n (by omega))]
      omega

theorem decode_nil : decode [] = [] := by simp [decode]

theorem decode_ppp (s : List Char) :
    decode ('%' :: '%' :: '%' :: s) = Char.ofNat (hexVal (s.take 6)) :: decode (s.drop 6) := by
  simp [decode]

theorem decode_pp (a : Char) (s : List Char) (h : a ≠ '%') :
    decode ('%' :: '%' :: a :: s)
      = Char.ofNat (hexVal ((a :: s).take 5)) :: decode ((a :: s).drop 5) := by
  rw [decode.eq_def]
  split
  · rename_i heq
    exact absurd heq (by simp)
  · rename_i heq
    simp only [List.cons.injEq] at heq
    exact absurd heq.2.2.1 h
  · rename_i hp heq
    simp only [List.cons.injEq, true_and] at heq
    subst heq
    rfl
  · rename_i hpp hp heq
    simp only [List.cons.injEq, true_and] at heq
    exact (hp (a :: s) heq.symm).elim
  · rename_i hppp hpp hp heq
    simp only [List.cons.injEq] at heq
    exact (hp heq.1.symm).elim

theorem decode_p (a : Char) (s : List Char) (h : a ≠ '%') :
    decode ('%' :: a :: s)
      = Char.ofNat (hexVal ((a :: s).take 2)) :: decode ((a :: s).drop 2) := by
  rw [decode.eq_def]
  split
  · rename_i heq
    exact absurd heq (by simp)
  · rename_i heq
    simp only [List.cons.injEq] at heq
    exact absurd heq.2.1 h
  · rename_i hp heq
    simp only [List.cons.injEq, true_and] at heq
    exact absurd heq.1 h
  · rename_i hpp hp heq
    simp only [List.cons.injEq, true_and] at heq
    subst heq
    rfl
  · rename_i hppp hpp hp heq
    simp only [List.cons.injEq] at heq
    exact (hp heq.1.symm).elim

theorem decode_other (c : Char) (s : List Char) (h : c ≠ '%') :
    decode (c :: s) = c :: decode s := by
  rw [decode.eq_def]
  split
  · rename_i heq
    exact absurd heq (by simp)
  · rename_i heq
    simp only [List.cons.injEq] at heq
    exact absurd heq.1 h
  · rename_i hp heq
    simp only [List.cons.injEq] at heq
    exact absurd heq.1 h
  · rename_i hpp hp heq
    simp only [List.cons.injEq] at heq
    exact absurd heq.1 h
  · rename_i hppp hpp hp heq
    simp only [List.cons.injEq] at heq
    rw [heq.1, heq.2]

theorem hexChars_ne_pct : ∀ x ∈ hexChars, x ≠ '%' := by decide

theorem char_toNat_lt (c : Char) : c.toNat < 1114112 := by
  rcases c.valid with h | ⟨_, h⟩
  · exact Nat.lt_trans h (by norm_num)
  · exact h

/-- Every character that `sanitize` ever escapes has 2, 5 or 6 hex digits:
the nine forbidden characters are two-digit ASCII, the trailing dot and space
likewise, and characters above the BMP lie in `[0x10000, 0x110000)`. -/
theorem escaped_hex_length (c : Char) (h : badChar c = true ∨ c = '.' ∨ c = ' ') :
    (natToHex c.toNat).length = 2 ∨ (natToHex c.toNat).length = 5 ∨
      (natToHex c.toNat).length = 6 := by
  rcases h with h | h | h
  · simp only [badChar, Bool.or_eq_true, decide_eq_true_eq] at h
    rcases h with h | h
    · left
      fin_cases h <;> decide
    · have hub := char_toNat_lt c
      by_cases h5 : c.toNat < 16 ^ 5
      · right; left
        exact natToHex_length 4 c.toNat (by omega) (by norm_num; omega)
      · right; right
        exact natToHex_length 5 c.toNat (by omega) (by norm_num; omega)
  · subst h; left; decide
  · subst h; left; decide

/-- Decoding an `_encode` escape of any character that `sanitize` escapes
recovers the character and leaves the remainder of the stream untouched. -/
theorem decode_encode_append (c : Char) (rest : List Char)
    (h : badChar c = true ∨ c = '.' ∨ c = ' ') :
    decode (_encode c ++ rest) = c :: decode rest := by
  rcases escaped_hex_length c h with hlen | hlen | hlen
  · obtain ⟨a, b, hab⟩ := List.length_eq_two.1 hlen
    have ha : a ∈ hexChars := natToHex_chars c.toNat a (by rw [hab]; simp)
    have hane : a ≠ '%' := hexChars_ne_pct a ha
    have henc : _encode c ++ rest = '%' :: a :: b :: rest := by
      unfold _encode
      rw [hlen, hab]
      rfl
    rw [henc, decode_p a (b :: rest) hane]
    have htake : (a :: b :: rest).take 2 = [a, b] := rfl
    have hdrop : (a :: b :: rest).drop 2 = rest := rfl
    rw [htake, hdrop, ← hab, hexVal_natToHex, Char.ofNat_toNat]
  · obtain ⟨a, t, hat⟩ := List.exists_cons_of_ne_nil (natToHex_ne_nil c.toNat)
    have ha : a ∈ hexChars := natToHex_chars c.toNat a (by rw [hat]; simp)
    have hane : a ≠ '%' := hexChars_ne_pct a ha
    have henc : _encode c ++ rest = '%' :: '%' :: a :: (t ++ rest) := by
      unfold _encode
      rw [hlen]
      show List.replicate 2 '%' ++ natToHex c.toNat ++ rest = _
      rw [hat]
      rfl
    rw [henc, decode_pp a (t ++ rest) hane]
    have hform : a :: (t ++ rest) = natToHex c.toNat ++ rest := by rw [hat]; rfl
    rw [hform]
    have htake : (natToHex c.toNat ++ rest).take 5 = natToHex c.toNat := by
      rw [← hlen]; exact List.take_left _ _
    have hdrop : (natToHex c.toNat ++ rest).drop 5 = rest := by
      rw [← hlen]; exact List.drop_left _ _
    rw [htake, hdrop, hexVal_natToHex, Char.ofNat_toNat]
  · have henc : _encode c ++ rest = '%' :: '%' :: '%' :: (natToHex c.toNat ++ rest) := by
      unfold _encode
      rw [hlen]
      rfl
    rw [henc, decode_ppp]
    have htake : (natToHex c.toNat ++ rest).take 6 = natToHex c.toNat := by
      rw [← hlen]; exact List.take_left _ _
    have hdrop : (natToHex c.toNat ++ rest).drop 6 = rest := by
      rw [← hlen]; exact List.drop_left _ _
    rw [htake, hdrop, hexVal_natToHex, Char.ofNat_toNat]

theorem decode_chunks (l : List Char) (suffix : List Char) (h : '%' ∉ l) :
    decode ((l.map sanChunk).flatten ++ suffix) = l ++ decode suffix := by
  induction l with
  | nil => simp
  | cons c t ih =>
    have hc : c ≠ '%' := fun hcp => h (hcp ▸ List.mem_cons_self c t)
    have ht : '%' ∉ t := fun htp => h (List.mem_cons_of_mem c htp)
    rw [List.map_cons, List.flatten_cons, List.append_assoc]
    by_cases hbad : badChar c
    · have hchunk : sanChunk c = _encode c := by simp [sanChunk, hbad]
      rw [hchunk, decode_encode_append c _ (Or.inl hbad), ih ht]
      rfl
    · have hchunk : sanChunk c = [c] := by simp [sanChunk, hbad]
      rw [hchunk, List.singleton_append, decode_other c _ hc, ih ht]
      rfl

theorem decode_sanLast (c : Char) (hc : c ≠ '%') : decode (sanLast c) = [c] := by
  unfold sanLast
  split
  · rename_i hbad
    have := decode_encode_append c [] (Or.inl hbad)
    rw [List.append_nil] at this
    rw [this, decode_nil]
  · split
    · rename_i hds
      have := decode_encode_append c [] (Or.inr hds)
      rw [List.append_nil] at this
      rw [this, decode_nil]
    · rw [decode_other c [] hc, decode_nil]

/-- On a percent-free input, `decode` is a left inverse of `sanitize`. -/
theorem decode_sanitize (name out : List Char) (h : sanitize name = some out)
    (hp : '%' ∉ name) : decode out = name := by
  rcases List.eq_nil_or_concat name with rfl | ⟨l, lc, rfl⟩
  · simp [sanitize] at h
  · rw [List.concat_eq_append] at h hp ⊢
    rw [sanitize_concat] at h
    obtain rfl : (l.map sanChunk).flatten ++ sanLast lc = out := by injection h
    have hl : '%' ∉ l := fun hm => hp (List.mem_append_left _ hm)
    have hlc : lc ≠ '%' := fun he => hp (List.mem_append_right _ (he ▸ List.mem_singleton_self _))
    rw [decode_chunks l (sanLast lc) hl, decode_sanLast lc hlc]

/-- Claim C7, counterexample: `sanitize` is not injective.  The distinct inputs
`"*"` and `"%2A"` both sanitize to `"%2A"` (a percent sign is not forbidden, so
an already-escaped name passes through unchanged). -/
theorem claim_C7_counterexample :
    sanitize ['*'] = sanitize ['%', '2', 'A'] ∧ (['*'] : List Char) ≠ ['%', '2', 'A'] := by
  decide

/-- Claim C7, amended: `sanitize` is injective on names containing no percent
character: two such names with equal sanitized forms are equal. -/
theorem claim_C7_amended (a b : List Char) (ha : '%' ∉ a) (hb : '%' ∉ b)
    (h : sanitize a = sanitize b) : a = b := by
  rcases hrec : sanitize a with _ | out
  · rw [hrec] at h
    rw [(sanitize_eq_none_iff a).1 hrec, (sanitize_eq_none_iff b).1 h.symm]
  · have hb' : sanitize b = some out := by rw [← h, hrec]
    rw [← decode_sanitize a out hrec ha, decode_sanitize b out hb' hb]

theorem claim_C7_witness : (['a', 'b'] : List Char) = ['a', 'b'] :=
  claim_C7_amended ['a', 'b'] ['a', 'b'] (by decide) (by decide) rfl

theorem isUnder_iff (q p : List String) : isUnder q p = true ↔ ∃ r, p = q ++ r := by
  induction q generalizing p with
  | nil => simp [isUnder]
  | cons a as ih =>
    cases p with
    | nil =>
      simp only [isUnder]
      constructor
      · intro h; exact absurd h (by simp)
      · rintro ⟨r, hr⟩; exact absurd hr (by simp)
    | cons b bs =>
      simp only [isUnder, Bool.and_eq_true, beq_iff_eq]
      rw [ih bs]
      constructor
      · rintro ⟨rfl, r, rfl⟩; exact ⟨r, rfl⟩
      · rintro ⟨r, hr⟩
        injection hr with h1 h2
        exact ⟨h1.symm, r, h2⟩

theorem isUnder_append (q r : List String) : isUnder q (q ++ r) = true :=
  (isUnder_iff q (q ++ r)).2 ⟨r, rfl⟩

theorem isUnder_concat (q l : List String) (a : String) (h : isUnder q (l ++ [a]) = true) :
    isUnder q l = true ∨ q = l ++ [a] := by
  obtain ⟨r, hr⟩ := (isUnder_iff q (l ++ [a])).1 h
  rcases List.eq_nil_or_concat r with rfl | ⟨r', b, rfl⟩
  · right; rw [hr]; simp
  · left
    rw [List.concat_eq_append, ← List.append_assoc] at hr
    have := List.append_inj' hr rfl
    rw [(by simpa using this : l = q ++ r' ∧ a = b).1]
    exact isUnder_append q r'

theorem isUnder_extend_false (R : List String) (r : List String) (hr : r ≠ []) :
    isUnder (R ++ r) R = false := by
  rw [Bool.eq_false_iff]
  intro h
  obtain ⟨s, hs⟩ := (isUnder_iff _ _).1 h
  rw [List.append_assoc] at hs
  have : r ++ s = [] := List.self_eq_append_right.1 hs
  rcases List.append_eq_nil.1 this with ⟨h1, _⟩
  exact hr h1

theorem mem_isFileAtL (l : EntryList) (c : Entry) (hc : c ∈ l.toList) (nm : String)
    (rest : List String) (hn : c.name = nm) (hf : isFileAt c rest = true) :
    isFileAtL l nm rest = true := by
  induction l using entryListInduction with
  | hnil => simp [EntryList.toList] at hc
  | hcons e t ih =>
    rw [EntryList.toList, List.mem_cons] at hc
    rw [isFileAtL, Bool.or_eq_true]
    rcases hc with rfl | hc
    · left
      rw [Bool.and_eq_true, beq_iff_eq]
      exact ⟨hn, hf⟩
    · right
      exact ih hc

theorem walkFilesHere_mem (ig : List (List String)) (root d : List String) :
    ∀ (l : EntryList) (n : List String), n ∈ walkFilesHere ig root (root ++ d) l →
    ∃ fn, n = d ++ [fn] ∧ isFileAtL l fn [] = true ∧ root ++ d ++ [fn] ∉ ig := by
  intro l
  induction l using entryListInduction with
  | hnil => intro n hn; simp [walkFilesHere] at hn
  | hcons e t ih =>
    intro n hn
    cases e with
    | dir dn dcs =>
      rw [walkFilesHere] at hn
      obtain ⟨fn, h1, h2, h3⟩ := ih n hn
      exact ⟨fn, h1, by rw [isFileAtL]; simp [h2], h3⟩
    | file fn r =>
      rw [walkFilesHere] at hn
      by_cases hig : (root ++ d) ++ [fn] ∈ ig
      · rw [if_pos hig] at hn
        obtain ⟨fn', h1, h2, h3⟩ := ih n hn
        exact ⟨fn', h1, by rw [isFileAtL]; simp [h2], h3⟩
      · rw [if_neg hig] at hn
        by_cases hr : r = true
        · rw [if_pos hr, List.mem_cons] at hn
          rcases hn with rfl | hn
          · refine ⟨fn, ?_, ?_, ?_⟩
            · rw [List.append_assoc, List.drop_left]
            · rw [isFileAtL]
              simp [isFileAt, Entry.name]
            · exact hig
          · obtain ⟨fn', h1, h2, h3⟩ := ih n hn
            exact ⟨fn', h1, by rw [isFileAtL]; simp [h2], h3⟩
        · rw [if_neg hr] at hn
          obtain ⟨fn', h1, h2, h3⟩ := ih n hn
          exact ⟨fn', h1, by rw [isFileAtL]; simp [h2], h3⟩

theorem looseFiles_mem (ig : List (List String)) (R : List String) :
    ∀ (l : EntryList) (fn : String) (r : Bool), (fn, r) ∈ looseFiles ig R l →
    isFileAtL l fn [] = true ∧ R ++ [fn] ∉ ig := by
  intro l
  induction l using entryListInduction with
  | hnil => intro fn r hn; simp [looseFiles] at hn
  | hcons e t ih =>
    intro fn r hn
    cases e with
    | dir dn dcs =>
      rw [looseFiles] at hn
      obtain ⟨h1, h2⟩ := ih fn r hn
      exact ⟨by rw [isFileAtL]; simp [h1], h2⟩
    | file fn' r' =>
      rw [looseFiles] at hn
      by_cases hig : R ++ [fn'] ∈ ig
      · rw [if_pos hig] at hn
        obtain ⟨h1, h2⟩ := ih fn r hn
        exact ⟨by rw [isFileAtL]; simp [h1], h2⟩
      · rw [if_neg hig, List.mem_cons] at hn
        rcases hn with heq | hn
        · obtain ⟨rfl, rfl⟩ : fn' = fn ∧ r' = r := by
            constructor <;> [exact (Prod.mk.injEq _ _ _ _ ▸ heq).1.symm;
              exact (Prod.mk.injEq _ _ _ _ ▸ heq).2.symm]
          refine ⟨?_, hig⟩
          rw [isFileAtL]
          simp [isFileAt, Entry.name]
        · obtain ⟨h1, h2⟩ := ih fn r hn
          exact ⟨by rw [isFileAtL]; simp [h1], h2⟩

mutual
/-- Soundness of the `build_tree` walk: every produced entry `n` is the path,
relative to the `rootdir` argument, of a file of the walked subtree (`e`, whose
absolute path is `root ++ d`), and — when no ignored path lies strictly above
the walk root — the file path `root ++ n` is neither an ignored path nor below
one. -/
theorem walkTar_sound : ∀ (ig : List (List String)) (root d : List String) (e : Entry)
    (n : List String), n ∈ walkTar ig root (root ++ d) e →
    (∃ s, n = d ++ s ∧ isFileAt e s = true) ∧
    ((∀ q ∈ ig, isUnder q (root ++ d) = true → q = root ++ d) →
      ∀ q ∈ ig, isUnder q (root ++ n) = false) := by
  intro ig root d e n hn
  cases e with
  | file fname r =>
    rw [walkTar] at hn
    simp at hn
  | dir dn cs =>
    rw [walkTar] at hn
    by_cases hig : root ++ d ∈ ig
    · rw [if_pos hig] at hn
      simp at hn
    · rw [if_neg hig, List.mem_append] at hn
      rcases hn with hn | hn
      · obtain ⟨fn, rfl, hf, hnig⟩ := walkFilesHere_mem ig root d cs _ hn
        refine ⟨⟨[fn], rfl, hf⟩, ?_⟩
        intro hstrict q hq
        rw [Bool.eq_false_iff]
        intro hu
        rw [← List.append_assoc] at hu
        rcases isUnder_concat q (root ++ d) fn hu with h1 | h1
        · exact hig (hstrict q hq h1 ▸ hq)
        · exact hnig (h1 ▸ hq)
      · obtain ⟨⟨nm, s, rfl, hf⟩, hign⟩ := walkTarKids_sound ig root d cs _ hn
        refine ⟨⟨nm :: s, rfl, hf⟩, ?_⟩
        intro hstrict
        apply hign
        intro q hq
        rw [Bool.eq_false_iff]
        intro hu
        exact hig (hstrict q hq hu ▸ hq)

theorem walkTarKids_sound : ∀ (ig : List (List String)) (root d : List String)
    (l : EntryList) (n : List String), n ∈ walkTarKids ig root (root ++ d) l →
    (∃ nm s, n = d ++ nm :: s ∧ isFileAtL l nm s = true) ∧
    ((∀ q ∈ ig, isUnder q (root ++ d) = false) →
      ∀ q ∈ ig, isUnder q (root ++ n) = false) := by
  intro ig root d l n hn
  cases l with
  | nil =>
    rw [walkTarKids] at hn
    simp at hn
  | cons c t =>
    rw [walkTarKids, List.mem_append] at hn
    rcases hn with hn | hn
    · have hrw : (root ++ d) ++ [c.name] = root ++ (d ++ [c.name]) := by
        rw [List.append_assoc]
      rw [hrw] at hn
      obtain ⟨⟨s, rfl, hf⟩, hign⟩ := walkTar_sound ig root (d ++ [c.name]) c _ hn
      constructor
      · refine ⟨c.name, s, by rw [List.append_assoc]; rfl, ?_⟩
        rw [isFileAtL, Bool.or_eq_true, Bool.and_eq_true, beq_iff_eq]
        exact Or.inl ⟨rfl, hf⟩
      · intro hnone
        apply hign
        intro q hq hu
        rw [← List.append_assoc] at hu
        rcases isUnder_concat q (root ++ d) c.name hu with h1 | h1
        · rw [hnone q hq] at h1
          exact absurd h1 (by simp)
        · rw [h1, List.append_assoc]
    · obtain ⟨⟨nm, s, rfl, hf⟩, hign⟩ := walkTarKids_sound ig root d t _ hn
      constructor
      · refine ⟨nm, s, rfl, ?_⟩
        rw [isFileAtL, Bool.or_eq_true]
        exact Or.inr hf
      · exact hign
end

mutual
/-- Soundness of `explore`: every entry `n` of every produced blob is the path of
a file of the explored tree `e` (rooted at `R`), relative to the blob's
`srcRoot` — the root of the `explore`/`build_tree` call that produced it — and,
when no ignored path is at or above `R`, the file path `b.srcRoot ++ n` is
neither an ignored path nor below one. -/
theorem explore_sound : ∀ (ig : List (List String)) (gl : List (List String × Nat))
    (R B : List String) (e : Entry) (b : Blob), b ∈ (explore ig gl R B e).blobs →
    ∀ n ∈ b.entries,
    (∃ rel, b.srcRoot = R ++ rel ∧ isFileAt e (rel ++ n) = true) ∧
    ((∀ q ∈ ig, isUnder q R = false) → ∀ q ∈ ig, isUnder q (b.srcRoot ++ n) = false) := by
  intro ig gl R B e b hb n hn
  cases e with
  | file fn r =>
    rw [explore] at hb
    simp at hb
  | dir dn cs =>
    rw [explore] at hb
    rw [show (BuildOut.mk (exploreKids ig gl R B cs).dirs
        ((exploreKids ig gl R B cs).blobs ++ packBlobs R B (looseFiles ig R cs))).blobs
      = (exploreKids ig gl R B cs).blobs ++ packBlobs R B (looseFiles ig R cs) from rfl,
      List.mem_append] at hb
    rcases hb with hb | hb
    · obtain ⟨⟨rel, hsrc, nm, s, hcons, hf⟩, hign⟩ := exploreKids_sound ig gl R B cs b hb n hn
      refine ⟨⟨rel, hsrc, ?_⟩, hign⟩
      rw [hcons]
      exact hf
    · unfold packBlobs at hb
      by_cases hemp : (looseFiles ig R cs).isEmpty
      · rw [if_pos hemp] at hb
        simp at hb
      · rw [if_neg hemp, List.mem_singleton] at hb
        subst hb
        simp only [List.mem_map, List.mem_filter] at hn
        obtain ⟨⟨fn, r⟩, ⟨hmem, hr⟩, rfl⟩ := hn
        obtain ⟨hf, hnig⟩ := looseFiles_mem ig R cs fn r hmem
        constructor
        · exact ⟨[], by simp, hf⟩
        · intro hnone q hq
          rw [Bool.eq_false_iff]
          intro hu
          rcases isUnder_concat q R fn hu with h1 | h1
          · rw [hnone q hq] at h1
            exact absurd h1 (by simp)
          · exact hnig (h1 ▸ hq)

theorem exploreKids_sound : ∀ (ig : List (List String)) (gl : List (List String × Nat))
    (R B : List String) (l : EntryList) (b : Blob), b ∈ (exploreKids ig gl R B l).blobs →
    ∀ n ∈ b.entries,
    (∃ rel, b.srcRoot = R ++ rel ∧ ∃ nm s, rel ++ n = nm :: s ∧ isFileAtL l nm s = true) ∧
    ((∀ q ∈ ig, isUnder q R = false) → ∀ q ∈ ig, isUnder q (b.srcRoot ++ n) = false) := by
  intro ig gl R B l b hb n hn
  cases l with
  | nil =>
    rw [exploreKids] at hb
    simp at hb
  | cons c t =>
    cases c with
    | file fn r =>
      rw [exploreKids] at hb
      obtain ⟨⟨rel, hsrc, nm, s, hcons, hf⟩, hign⟩ := exploreKids_sound ig gl R B t b hb n hn
      refine ⟨⟨rel, hsrc, nm, s, hcons, ?_⟩, hign⟩
      rw [isFileAtL, Bool.or_eq_true]
      exact Or.inr hf
    | dir cname ccs =>
      rw [exploreKids] at hb
      by_cases hig : R ++ [cname] ∈ ig
      · rw [if_pos hig] at hb
        obtain ⟨⟨rel, hsrc, nm, s, hcons, hf⟩, hign⟩ := exploreKids_sound ig gl R B t b hb n hn
        refine ⟨⟨rel, hsrc, nm, s, hcons, ?_⟩, hign⟩
        rw [isFileAtL, Bool.or_eq_true]
        exact Or.inr hf
      · rw [if_neg hig] at hb
        by_cases hgm : groupMatch gl (R ++ [cname]) = true
        · rw [if_pos hgm] at hb
          rw [show (BuildOut.mk _ ((explore ig (decLevels gl) (R ++ [cname])
              (B ++ [sanitizeName cname]) (.dir cname ccs)).blobs
              ++ (exploreKids ig gl R B t).blobs)).blobs
            = (explore ig (decLevels gl) (R ++ [cname]) (B ++ [sanitizeName cname])
                (.dir cname ccs)).blobs ++ (exploreKids ig gl R B t).blobs from rfl,
            List.mem_append] at hb
          rcases hb with hb | hb
          · obtain ⟨⟨rel', hsrc, hf⟩, hign⟩ :=
              explore_sound ig (decLevels gl) (R ++ [cname]) (B ++ [sanitizeName cname])
                (.dir cname ccs) b hb n hn
            have hchild : ∀ hnone : (∀ q ∈ ig, isUnder q R = false),
                ∀ q ∈ ig, isUnder q (R ++ [cname]) = false := by
              intro hnone q hq
              rw [Bool.eq_false_iff]
              intro hu
              rcases isUnder_concat q R cname hu with h1 | h1
              · rw [hnone q hq] at h1
                exact absurd h1 (by simp)
              · exact hig (h1 ▸ hq)
            constructor
            · refine ⟨cname :: rel', ?_, cname, rel' ++ n, rfl, ?_⟩
              · rw [hsrc, List.append_assoc]
                rfl
              · rw [isFileAtL, Bool.or_eq_true, Bool.and_eq_true, beq_iff_eq]
                exact Or.inl ⟨rfl, hf⟩
            · intro hnone
              exact hign (hchild hnone)
          · obtain ⟨⟨rel, hsrc, nm, s, hcons, hf⟩, hign⟩ :=
              exploreKids_sound ig gl R B t b hb n hn
            refine ⟨⟨rel, hsrc, nm, s, hcons, ?_⟩, hign⟩
            rw [isFileAtL, Bool.or_eq_true]
            exact Or.inr hf
        · rw [if_neg (by simpa using hgm)] at hb
          rw [show (BuildOut.mk (exploreKids ig gl R B t).dirs
              (Blob.mk B R (sanitizeName cname) (walkTar ig R (R ++ [cname]) (.dir cname ccs))
                :: (exploreKids ig gl R B t).blobs)).blobs
            = Blob.mk B R (sanitizeName cname) (walkTar ig R (R ++ [cname]) (.dir cname ccs))
                :: (exploreKids ig gl R B t).blobs from rfl, List.mem_cons] at hb
          rcases hb with rfl | hb
          · have hw : n ∈ walkTar ig R (R ++ [cname]) (.dir cname ccs) := hn
            obtain ⟨⟨s, rfl, hf⟩, hign⟩ := walkTar_sound ig R [cname] (.dir cname ccs) _ hw
            constructor
            · refine ⟨[], by simp, cname, s, rfl, ?_⟩
              rw [isFileAtL, Bool.or_eq_true, Bool.and_eq_true, beq_iff_eq]
              exact Or.inl ⟨rfl, hf⟩
            · intro hnone
              apply hign
              intro q hq hu
              rcases isUnder_concat q R cname hu with h1 | h1
              · rw [hnone q hq] at h1
                exact absurd h1 (by simp)
              · exact h1
          · obtain ⟨⟨rel, hsrc, nm, s, hcons, hf⟩, hign⟩ :=
              exploreKids_sound ig gl R B t b hb n hn
            refine ⟨⟨rel, hsrc, nm, s, hcons, ?_⟩, hign⟩
            rw [isFileAtL, Bool.or_eq_true]
            exact Or.inr hf
end

/-- How `explore` treats one (non-ignored) directory child, at the level of the
children iteration: grouped children contribute a build subdirectory and their
recursive output, ungrouped ones a single leaf blob. -/
theorem exploreKids_child (ig : List (List String)) (gl : List (List String × Nat))
    (R B : List String) (l : EntryList) (cname : String) (ccs : EntryList)
    (hmem : Entry.dir cname ccs ∈ l.toList) (hni : R ++ [cname] ∉ ig) :
    (groupMatch gl (R ++ [cname]) = true →
      (B ++ [sanitizeName cname]) ∈ (exploreKids ig gl R B l).dirs ∧
      ∀ b ∈ (explore ig (decLevels gl) (R ++ [cname]) (B ++ [sanitizeName cname])
          (.dir cname ccs)).blobs, b ∈ (exploreKids ig gl R B l).blobs) ∧
    (groupMatch gl (R ++ [cname]) = false →
      Blob.mk B R (sanitizeName cname) (walkTar ig R (R ++ [cname]) (.dir cname ccs))
        ∈ (exploreKids ig gl R B l).blobs) := by
  induction l using entryListInduction with
  | hnil => simp [EntryList.toList] at hmem
  | hcons e t ih =>
    rw [EntryList.toList, List.mem_cons] at hmem
    rcases hmem with heq | hmem
    · subst heq
      rw [exploreKids, if_neg hni]
      constructor
      · intro hgm
        rw [if_pos hgm]
        exact ⟨List.mem_cons_self _ _, fun b hb => List.mem_append_left _ hb⟩
      · intro hgm
        rw [if_neg (by simp [hgm])]
        exact List.mem_cons_self _ _
    · have ihm := ih hmem
      cases e with
      | file fn r =>
        rw [exploreKids]
        exact ihm
      | dir dn dcs =>
        rw [exploreKids]
        by_cases hig2 : R ++ [dn] ∈ ig
        · rw [if_pos hig2]
          exact ihm
        · rw [if_neg hig2]
          by_cases hgm2 : groupMatch gl (R ++ [dn]) = true
          · rw [if_pos hgm2]
            refine ⟨fun hgm => ⟨?_, fun b hb => ?_⟩, fun hgm => ?_⟩
            · exact List.mem_cons_of_mem _ (List.mem_append_right _ ((ihm.1 hgm).1))
            · exact List.mem_append_right _ ((ihm.1 hgm).2 b hb)
            · exact List.mem_append_right _ (ihm.2 hgm)
          · rw [if_neg hgm2]
            refine ⟨fun hgm => ⟨?_, fun b hb => ?_⟩, fun hgm => ?_⟩
            · exact (ihm.1 hgm).1
            · exact List.mem_cons_of_mem _ ((ihm.1 hgm).2 b hb)
            · exact List.mem_cons_of_mem _ (ihm.2 hgm)

/-- Claim C4: a directory child matching a `group_levels` key with positive
remaining budget (a key is present exactly while its budget is positive, see
`decLevels`) gets a sanitized build subdirectory and is recursed into with every
budget decremented by one and entries that would reach `0` dropped
(`decLevels`); a child matching no key — because the key is absent or its budget
is exhausted — is archived wholesale as a single leaf blob via `build_tree`.
Matching (`groupMatch`) asks whether some key equals the child or is an ancestor
of it, so inherited budgets only ever apply below the originally matched
directory. -/
theorem claim_C4 (ig : List (List String)) (gl : List (List String × Nat))
    (R B : List String) (rn : String) (cs : EntryList) (cname : String) (ccs : EntryList)
    (_hpos : ∀ kv ∈ gl, 1 ≤ kv.2)
    (hmem : Entry.dir cname ccs ∈ cs.toList)
    (hni : R ++ [cname] ∉ ig) :
    (groupMatch gl (R ++ [cname]) = true →
      (B ++ [sanitizeName cname]) ∈ (explore ig gl R B (.dir rn cs)).dirs ∧
      ∀ b ∈ (explore ig (decLevels gl) (R ++ [cname]) (B ++ [sanitizeName cname])
          (.dir cname ccs)).blobs, b ∈ (explore ig gl R B (.dir rn cs)).blobs) ∧
    (groupMatch gl (R ++ [cname]) = false →
      Blob.mk B R (sanitizeName cname) (walkTar ig R (R ++ [cname]) (.dir cname ccs))
        ∈ (explore ig gl R B (.dir rn cs)).blobs) := by
  have hkids := exploreKids_child ig gl R B cs cname ccs hmem hni
  constructor
  · intro hgm
    obtain ⟨hd, hbl⟩ := hkids.1 hgm
    refine ⟨hd, fun b hb => ?_⟩
    rw [explore]
    exact List.mem_append_left _ (hbl b hb)
  · intro hgm
    rw [explore]
    exact List.mem_append_left _ (hkids.2 hgm)

theorem claim_C4_witness :
    (([] : List String) ++ [sanitizeName "projects"])
        ∈ (explore [] scenarioGL ["data"] [] (.dir "data" scenarioKids)).dirs ∧
    ∀ b ∈ (explore [] (decLevels scenarioGL) (["data"] ++ ["projects"])
        (([] : List String) ++ [sanitizeName "projects"]) (.dir "projects" scenarioProjKids)).blobs,
      b ∈ (explore [] scenarioGL ["data"] [] (.dir "data" scenarioKids)).blobs :=
  (claim_C4 [] scenarioGL ["data"] [] "data" scenarioKids "projects" scenarioProjKids
    (by decide) (by decide) (by decide)).1 (by decide)

/-- Claim C1, counterexample: in the §8 scenario the blob built for
`projects/a` (inside the grouped subdirectory `projects`) stores the entry name
`a/x.txt`, which is *not* the file's path relative to the configured source
root `/data` — no file exists at `data/a/x.txt`; the archived file actually
lives at `data/projects/a/x.txt`.  Entry names are relative to the directory
being explored, not to the source root. -/
theorem claim_C1_counterexample :
    (∃ b ∈ (exploreTop [] scenarioGL ["data"] scenarioTree).blobs,
        b.srcRoot = ["data", "projects"] ∧ b.entries = [["a", "x.txt"]]) ∧
    isFileAt scenarioTree ["a", "x.txt"] = false ∧
    isFileAt scenarioTree ["projects", "a", "x.txt"] = true := by decide

/-- Claim C1, amended: every entry name of every produced blob equals the
archived file's path relative to the root of the `explore` call that produced
the blob (its `srcRoot`, the nearest enclosing grouped directory) — not, in
general, relative to the configured source root; the source root is the
`srcRoot` only of top-level blobs.  The original structure is recoverable from
the blob's containing directory together with its entry names. -/
theorem claim_C1_amended (ig : List (List String)) (gl : List (List String × Nat))
    (R B : List String) (t : Entry) (b : Blob) (hb : b ∈ (explore ig gl R B t).blobs)
    (n : List String) (hn : n ∈ b.entries) :
    ∃ rel, b.srcRoot = R ++ rel ∧ isFileAt t (rel ++ n) = true :=
  (explore_sound ig gl R B t b hb n hn).1

theorem claim_C1_witness :
    ∃ rel, (["data", "projects"] : List String) = ["data"] ++ rel ∧
      isFileAt (sortAllE scenarioTree) (rel ++ ["a", "x.txt"]) = true := by
  have h := claim_C1_amended [] scenarioGL ["data"] [] (sortAllE scenarioTree)
    ⟨["projects"], ["data", "projects"], "a", [["a", "x.txt"]]⟩ (by decide)
    ["a", "x.txt"] (by decide)
  simpa using h

/-- Claim C3, counterexample: the ignore set is built as `rootdir / relative`;
the relative entry `"."` (empty component list) is accepted by the validation
(`Path(".")` is relative and exists) and makes the source root itself an
ignored directory — yet its descendants still appear in produced archives, here
`data/f.txt` inside the packed-files blob. -/
theorem claim_C3_counterexample :
    ∃ b ∈ (exploreTop (([[]] : List (List String)).map (["data"] ++ ·)) [] ["data"]
        (.dir "data" (elist [.file "f.txt" true]))).blobs,
      ∃ n ∈ b.entries, ∃ q ∈ ([[]] : List (List String)).map (["data"] ++ ·),
        isUnder q (b.srcRoot ++ n) = true := by decide

/-- Claim C3, amended: for every ignore entry whose relative part is non-empty
(every entry other than the source root itself), neither the ignored path nor
any path below it is ever referenced by an entry of any produced archive. -/
theorem claim_C3_amended (rels : List (List String)) (R : List String)
    (gl : List (List String × Nat)) (B : List String) (t : Entry)
    (hrel : ∀ r ∈ rels, r ≠ []) (b : Blob)
    (hb : b ∈ (explore (rels.map (R ++ ·)) gl R B t).blobs)
    (n : List String) (hn : n ∈ b.entries) :
    ∀ q ∈ rels.map (R ++ ·), isUnder q (b.srcRoot ++ n) = false := by
  apply (explore_sound _ gl R B t b hb n hn).2
  intro q hq
  obtain ⟨r, hr, rfl⟩ := List.mem_map.1 hq
  exact isUnder_extend_false R r (hrel r hr)

theorem claim_C3_witness :
    isUnder ["data", "secrets"]
      ((Blob.mk [] ["data"] "_packed_files" [["z.txt"]]).srcRoot ++ ["z.txt"]) = false :=
  claim_C3_amended [["secrets"]] ["data"] [] [] c3WitnessTree (by decide)
    ⟨[], ["data"], "_packed_files", [["z.txt"]]⟩ (by decide) ["z.txt"] (by decide)
    ["data", "secrets"] (by decide)

/-- For an absolute directory, the relative candidate of `_get_name` never
equals any of the absolute paths `iterdir()` yields, so the collision loop
never advances: the suffix-less name is returned no matter what the directory
contains. -/
theorem get_name_absolute (basename : String) (dir : PyPath) (names : List String)
    (h : dir.root = true) :
    _get_name basename dir names = ⟨true, dir.parts ++ [basename ++ ".tar.bz2"]⟩ := by
  have hnm : (⟨false, [basename ++ ".tar.bz2"]⟩ : PyPath) ∉ dir.iterdirList names := by
    intro hmem
    obtain ⟨nm, _, heq⟩ := List.mem_map.1 hmem
    have hroot : dir.root = false := congrArg PyPath.root heq
    rw [h] at hroot
    exact Bool.noConfusion hroot
  unfold _get_name
  rw [getNameLoop, if_neg hnm]
  unfold PyPath.div
  rw [h]

/-- Claim C2 (code bug): `_get_name` compares the relative candidate
`Path("name.tar.bz2")` against the absolute paths yielded by
`directory.iterdir()`, so for the absolute build directories the program uses
the membership test is always false and the `-1`, `-2`, … suffix loop never
runs; with `/build/name.tar.bz2` already existing, `_get_name` returns that
occupied path and the exclusive `tarfile.open(..., "x:bz2")` raises
`FileExistsError` — the run aborts instead of producing `name-1.tar.bz2`. -/
theorem claim_C2_bug :
    _get_name "name" ⟨true, ["build"]⟩ ["name.tar.bz2"]
        = ⟨true, ["build", "name.tar.bz2"]⟩ ∧
    build_tree_open ⟨true, ["build"]⟩ ["name.tar.bz2"] "name"
        = .error "FileExistsError" := by decide

theorem compare_content_iff_aux : ∀ (k : Nat) (f1 f2 : List Nat), f1.length ≤ k →
    (compare_content f1 f2 = true ↔ f1 = f2) := by
  intro k
  induction k with
  | zero =>
    intro f1 f2 hlen
    obtain rfl : f1 = [] := List.length_eq_zero.1 (Nat.le_zero.1 hlen)
    rw [compare_content]
    by_cases h2 : f2.take 65536 = []
    · have : f2 = [] := by
        rcases List.take_eq_nil_iff.1 h2 with h | h
        · omega
        · exact h
      subst this
      simp
    · rw [if_pos (by simpa using Ne.symm h2)]
      have : f2 ≠ [] := fun hf => h2 (by simp [hf])
      simp [this.symm]
  | succ k ih =>
    intro f1 f2 hlen
    rw [compare_content]
    by_cases hne : f1.take 65536 ≠ f2.take 65536
    · rw [if_pos hne]
      constructor
      · intro h; exact absurd h (by simp)
      · rintro rfl; exact absurd rfl hne
    · rw [if_neg hne]
      rw [not_not] at hne
      by_cases hnil : f1.take 65536 = []
      · rw [dif_pos hnil]
        have hf1 : f1 = [] := by
          rcases List.take_eq_nil_iff.1 hnil with h | h
          · omega
          · exact h
        have hf2 : f2 = [] := by
          have h2 : f2.take 65536 = [] := by rw [← hne]; exact hnil
          rcases List.take_eq_nil_iff.1 h2 with h | h
          · omega
          · exact h
        simp [hf1, hf2]
      · rw [dif_neg hnil]
        have hf1ne : f1 ≠ [] := fun hf => hnil (by simp [hf])
        have hlen' : (f1.drop 65536).length ≤ k := by
          have : f1.length ≠ 0 := fun hz => hf1ne (List.length_eq_zero.1 hz)
          simp only [List.length_drop]
          omega
        rw [ih (f1.drop 65536) (f2.drop 65536) hlen']
        constructor
        · intro hdrop
          calc f1 = f1.take 65536 ++ f1.drop 65536 := (List.take_append_drop _ _).symm
            _ = f2.take 65536 ++ f2.drop 65536 := by rw [hne, hdrop]
            _ = f2 := List.take_append_drop _ _
        · rintro rfl; rfl

/-- Claim C6: `compare_content` returns `True` exactly when the two files' byte
contents are equal — it reads the files in 65536-byte (64 KiB) chunks and looks
at content only, no metadata entering the model — and `main` classifies a built
blob `new` when no file exists at the corresponding mirror path, `equal` when
the byte-by-byte comparison succeeds, and `changed` otherwise. -/
theorem claim_C6 :
    (∀ f1 f2 : List Nat, compare_content f1 f2 = true ↔ f1 = f2) ∧
    (∀ b : List Nat, classify b none = "new") ∧
    (∀ b s : List Nat, (classify b (some s) = "equal" ↔ b = s) ∧
      (classify b (some s) = "changed" ↔ b ≠ s)) := by
  have hcc : ∀ f1 f2 : List Nat, compare_content f1 f2 = true ↔ f1 = f2 :=
    fun f1 f2 => compare_content_iff_aux f1.length f1 f2 le_rfl
  refine ⟨hcc, fun b => rfl, fun b s => ?_⟩
  show ((if compare_content b s = true then "equal" else "changed") = "equal" ↔ b = s) ∧
    ((if compare_content b s = true then "equal" else "changed") = "changed" ↔ b ≠ s)
  by_cases h : compare_content b s = true
  · rw [if_pos h]
    have : b = s := (hcc b s).1 h
    simp [this]
  · rw [if_neg h]
    have : b ≠ s := fun he => h ((hcc b s).2 he)
    simp [this]

/-- Claim C8, counterexample: ignore entries are required to be *relative*, the
opposite of the claim — a relative existing entry is accepted (and resolved
against the source root), while an absolute entry is the fatal configuration
error. -/
theorem claim_C8_counterexample :
    loadIgnore ["data"] (.dir "data" (elist [.dir "sub" .nil]))
        [⟨false, ["sub"]⟩] = .ok [["data", "sub"]] ∧
    loadIgnore ["data"] (.dir "data" (elist [.dir "sub" .nil]))
        [⟨true, ["etc"]⟩] = .error "to-ignore nodes must be relative" := by decide

/-- Claim C8, amended: ignore-set entries are relative paths, joined to the
source root and each verified to exist at load time; a (non-existent or)
absolute entry is a fatal configuration error, raised during config loading
before any filesystem mutation (the model's `mainBuild` short-circuits before
`explore`). -/
theorem claim_C8_amended (rootParts : List String) (t : Entry) (entries : List PyPath) :
    ((∃ l, loadIgnore rootParts t entries = .ok l) ↔
      ∀ e ∈ entries, e.root = false ∧ existsAt t e.parts = true) ∧
    (∀ l, loadIgnore rootParts t entries = .ok l →
      l = entries.map (fun e => rootParts ++ e.parts)) ∧
    (∀ gl m, loadIgnore rootParts t entries = .error m →
      mainBuild rootParts t entries gl = .error m) := by
  refine ⟨?_, ?_, ?_⟩
  · induction entries with
    | nil => simp [loadIgnore]
    | cons e rest ih =>
      rw [loadIgnore]
      by_cases hr : e.root = true
      · rw [if_pos hr]
        constructor
        · rintro ⟨l, hl⟩; exact absurd hl (by simp)
        · intro h
          exact absurd (h e (List.mem_cons_self _ _)).1 (by simp [hr])
      · rw [if_neg hr]
        rw [Bool.not_eq_true] at hr
        by_cases hex : existsAt t e.parts = false
        · rw [if_pos hex]
          constructor
          · rintro ⟨l, hl⟩; exact absurd hl (by simp)
          · intro h
            have := (h e (List.mem_cons_self _ _)).2
            rw [this] at hex
            exact Bool.noConfusion hex
        · rw [if_neg hex]
          rw [Bool.not_eq_false] at hex
          constructor
          · intro ⟨l, hl⟩ e' he'
            rcases List.mem_cons.1 he' with rfl | he'
            · exact ⟨hr, hex⟩
            · rcases hrest : loadIgnore rootParts t rest with m | l'
              · rw [hrest] at hl; exact absurd hl (by simp)
              · exact (ih.1 ⟨l', hrest⟩) e' he'
          · intro h
            obtain ⟨l', hl'⟩ := ih.2 (fun e' he' => h e' (List.mem_cons_of_mem _ he'))
            exact ⟨(rootParts ++ e.parts) :: l', by rw [hl']⟩
  · induction entries with
    | nil =>
      intro l hl
      simp only [loadIgnore, Except.ok.injEq] at hl
      simp [← hl]
    | cons e rest ih =>
      intro l hl
      rw [loadIgnore] at hl
      by_cases hr : e.root = true
      · rw [if_pos hr] at hl; exact absurd hl (by simp)
      · rw [if_neg hr] at hl
        by_cases hex : existsAt t e.parts = false
        · rw [if_pos hex] at hl; exact absurd hl (by simp)
        · rw [if_neg hex] at hl
          rcases hrest : loadIgnore rootParts t rest with m | l'
          · rw [hrest] at hl; exact absurd hl (by simp)
          · rw [hrest] at hl
            obtain rfl : (rootParts ++ e.parts) :: l' = l := by
              injection hl
            rw [List.map_cons, ih l' hrest]
  · intro gl m hm
    unfold mainBuild
    rw [hm]

theorem claim_C8_witness :
    ((∃ l, loadIgnore ["data"] c8Tree [⟨true, ["etc"]⟩] = .ok l) ↔
      ∀ e ∈ [(⟨true, ["etc"]⟩ : PyPath)], e.root = false ∧ existsAt c8Tree e.parts = true) ∧
    (∀ l, loadIgnore ["data"] c8Tree [⟨true, ["etc"]⟩] = .ok l →
      l = [(⟨true, ["etc"]⟩ : PyPath)].map (fun e => ["data"] ++ e.parts)) ∧
    (∀ gl m, loadIgnore ["data"] c8Tree [⟨true, ["etc"]⟩] = .error m →
      mainBuild ["data"] c8Tree [⟨true, ["etc"]⟩] gl = .error m) :=
  claim_C8_amended ["data"] c8Tree [⟨true, ["etc"]⟩]

example : natToHex 0x2A = ['2', 'A'] := by decide
example : _encode '*' = ['%', '2', 'A'] := by decide
example : _encode (Char.ofNat 0x10000) = ['%', '%', '1', '0', '0', '0', '0'] := by decide
example : sanitize ['a', '*', 'b'] = some ['a', '%', '2', 'A', 'b'] := by decide
example : sanitize ['a', '.'] = some ['a', '%', '2', 'E'] := by decide
example : sanitize ['a', '.', 'b'] = some ['a', '.', 'b'] := by decide
example : sanitize [' '] = some ['%', '2', '0'] := by decide
example : sanitize [] = none := by decide
example : sanitize ['*'] = sanitize ['%', '2', 'A'] := by decide

end Backupacker

